import Mathlib

/-!
Verification of the statistical profiling engine of the Data_Insight
repository (src/src/profiling/data_profiler.py), against its
natural-language specification.

The Python code operates on a pandas DataFrame.  We embed a column as a
list of optional cell values (missing cells are `none`), together with the
column name and its pandas storage dtype.  Pure helper functions mirror
the individual methods of `DataProfiler`:

* `classifyColumn` / `classifyColumns`  ↦  `_classify_columns`
* `isIdColumn`                          ↦  `_is_id_column`
* `profileNumeric`                      ↦  `_profile_numeric`
* `profileCategorical`                  ↦  `_profile_categorical`
* `inferredFrequency`                   ↦  the frequency-inference step of
                                           `_profile_datetime`
* `strongCorrelations`                  ↦  the strong-correlation part of
                                           `_compute_correlations`
* `profilerInit`                        ↦  `DataProfiler.__init__`

Machine floats are modelled by exact rationals (the statistics involved
are ratios, quantile interpolations and comparisons, all exact in ℚ);
the entropy and standard deviation, which genuinely live in ℝ, use
`Real.log` / `Real.sqrt`.  Timestamps are modelled by integers (ticks),
so that differences and their mode are exact.
-/

namespace DataInsight

/-- A cell value: a number or a text value.  Under a pandas numeric dtype
Python booleans compare equal to 0/1, so boolean cells of numeric columns
are represented by `num 0` / `num 1`. -/
inductive Val where
  | num (q : ℚ)
  | str (s : String)
  deriving DecidableEq

/-- The pandas storage dtype of a column, as far as `_classify_columns`
inspects it: `is_numeric_dtype`, `is_datetime64_any_dtype`, or anything
else (object/text). -/
inductive Dtype where
  | numericT
  | datetimeT
  | objectT
  deriving DecidableEq

/-- One dataset column: its name, storage dtype and cells; a missing cell
(NaN/None) is `none`. -/
structure Column where
  name : String
  dtype : Dtype
  cells : List (Option Val)
  deriving DecidableEq

/-- The profiling configuration extracted in `DataProfiler.__init__`, with
the defaults used there. -/
structure ProfilingConfig where
  id_column_patterns : List String := ["id", "index", "key"]
  high_cardinality_threshold : ℚ := 95 / 100
  correlation_threshold : ℚ := 6 / 10
  outlier_method : String := "IQR"
  outlier_multiplier : ℚ := 3 / 2
  high_missing_threshold : ℚ := 1 / 2
  top_categories_count : ℕ := 10
  deriving DecidableEq

/-- The default configuration (an empty `profiling` config section). -/
def defaultConfig : ProfilingConfig := {}

/-- Whether the character list `pat` occurs at the start of `hay`
(Python `str.startswith`, used to build the substring test below). -/
def charsStart : List Char → List Char → Bool
  | _, [] => true
  | [], _ :: _ => false
  | a :: as, b :: bs => a == b && charsStart as bs

/-- Whether `pat` occurs as a contiguous substring of `hay`; models the
Python expression `pat in hay` on strings. -/
def charsContain : List Char → List Char → Bool
  | [], pat => pat.isEmpty
  | a :: as, pat => charsStart (a :: as) pat || charsContain as pat

/-- The characters of `s` lowercased (Python `str.lower`, per character). -/
def lowerChars (s : String) : List Char :=
  s.data.map Char.toLower

/-- Python `pat in hay.lower()` for strings: the substring test applied to
the lowercased column name, as in `_is_id_column`. -/
def strContainsLower (hay pat : String) : Bool :=
  charsContain (lowerChars hay) pat.data

/-- The non-missing values of a column, in row order
(pandas `Series.dropna()`). -/
def nonNullValues (c : Column) : List Val :=
  c.cells.filterMap id

/-- Embeds `DataProfiler._is_id_column`: first the case-insensitive
substring test of the column name against every configured ID pattern,
then the cardinality test `nunique / non_null_count ≥ threshold`, skipped
(returning `false`) when the column has no non-missing value. -/
def isIdColumn (cfg : ProfilingConfig) (c : Column) : Bool :=
  if cfg.id_column_patterns.any (fun p => strContainsLower c.name p) then
    true
  else
    let nonNullCount := (nonNullValues c).length
    if nonNullCount = 0 then
      false
    else
      decide (((nonNullValues c).dedup.length : ℚ) / nonNullCount ≥
        cfg.high_cardinality_threshold)

/-- The five column classes of `_classify_columns`. -/
inductive ColClass where
  | numeric
  | categorical
  | datetime
  | boolean
  | id
  deriving DecidableEq

/-- Embeds the per-column branch of `DataProfiler._classify_columns`.
`parses` models single-value success of `pd.to_datetime(·, errors=..raise..)`;
the `try` block succeeds exactly when every one of the first 100
non-missing values parses (vacuously on an empty sample, as
`pd.to_datetime` of an empty series raises nothing). -/
def classifyColumn (cfg : ProfilingConfig) (parses : Val → Bool)
    (c : Column) : ColClass :=
  if isIdColumn cfg c then
    .id
  else
    match c.dtype with
    | .numericT =>
      let uniqueVals := (nonNullValues c).dedup
      if uniqueVals.length ≤ 2 &&
          uniqueVals.all (fun v => v == Val.num 0 || v == Val.num 1) then
        .boolean
      else
        .numeric
    | .datetimeT => .datetime
    | .objectT =>
      if ((nonNullValues c).take 100).all parses then
        .datetime
      else
        .categorical

/-- Embeds `DataProfiler._classify_columns` as a whole: the list of column
names assigned to a given class, in dataset column order. -/
def classifyColumns (cfg : ProfilingConfig) (parses : Val → Bool)
    (cols : List Column) (cl : ColClass) : List String :=
  (cols.filter (fun c => classifyColumn cfg parses c == cl)).map Column.name

theorem mem_classifyColumns {cfg : ProfilingConfig} {parses : Val → Bool}
    {cols : List Column} {cl : ColClass} {n : String} :
    n ∈ classifyColumns cfg parses cols cl ↔
      ∃ c ∈ cols, classifyColumn cfg parses c = cl ∧ c.name = n := by
  simp only [classifyColumns, List.mem_map, List.mem_filter, beq_iff_eq]
  constructor
  · rintro ⟨c, ⟨hc, hcl⟩, hn⟩
    exact ⟨c, hc, hcl, hn⟩
  · rintro ⟨c, hc, hcl, hn⟩
    exact ⟨c, ⟨hc, hcl⟩, hn⟩

/-- A small concrete dataset used to instantiate classifier theorems. -/
def sampleCols : List Column :=
  [⟨"age", .numericT, [some (.num 30), some (.num 45), some (.num 30)]⟩,
   ⟨"city", .objectT, [some (.str "NY"), none, some (.str "LA")]⟩]

/-- C1: the Column Classifier assigns each column name to exactly one of
the five classes — for datasets with distinct column names the five
classification sets are pairwise disjoint and their union is the full set
of column names. -/
theorem classifier_partitions_columns (cfg : ProfilingConfig)
    (parses : Val → Bool) (cols : List Column)
    (hnd : (cols.map Column.name).Nodup) :
    (∀ cl₁ cl₂, cl₁ ≠ cl₂ → ∀ n, n ∈ classifyColumns cfg parses cols cl₁ →
      n ∉ classifyColumns cfg parses cols cl₂) ∧
    (∀ n, (∃ cl, n ∈ classifyColumns cfg parses cols cl) ↔
      n ∈ cols.map Column.name) := by
  constructor
  · intro cl₁ cl₂ hne n h₁ h₂
    obtain ⟨c₁, hc₁, hcl₁, hn₁⟩ := mem_classifyColumns.mp h₁
    obtain ⟨c₂, hc₂, hcl₂, hn₂⟩ := mem_classifyColumns.mp h₂
    have hceq : c₁ = c₂ :=
      List.inj_on_of_nodup_map hnd hc₁ hc₂ (hn₁.trans hn₂.symm)
    exact hne (by rw [← hcl₁, ← hcl₂, hceq])
  · intro n
    constructor
    · rintro ⟨cl, h⟩
      obtain ⟨c, hc, _, hn⟩ := mem_classifyColumns.mp h
      exact List.mem_map.mpr ⟨c, hc, hn⟩
    · intro h
      obtain ⟨c, hc, hn⟩ := List.mem_map.mp h
      exact ⟨classifyColumn cfg parses c,
        mem_classifyColumns.mpr ⟨c, hc, rfl, hn⟩⟩

/-- Witness for C1 on a concrete two-column dataset. -/
theorem classifier_partitions_columns_witness :
    ("age" ∈ sampleCols.map Column.name) ∧
    (∃ cl, "age" ∈ classifyColumns defaultConfig (fun _ => false) sampleCols cl) :=
  ⟨by decide,
    ((classifier_partitions_columns defaultConfig (fun _ => false) sampleCols
      (by decide)).2 "age").mpr (by decide)⟩

/-- C2 counterexample: an all-missing, non-ID column of object dtype is
classified `datetime`, not `categorical` — the vacuous datetime parse of
zero sampled values succeeds. -/
theorem empty_column_counterexample :
    classifyColumn defaultConfig (fun _ => false)
      ⟨"notes", .objectT, [none, none]⟩ = ColClass.datetime ∧
    ColClass.datetime ≠ ColClass.categorical := by
  exact ⟨by rfl, by decide⟩

/-- C2 amended: a column with zero non-missing values whose name matches
no configured ID pattern is never classified `numeric` or `categorical`;
it is classified `boolean` exactly when its storage dtype is numeric
(the empty unique-value set is a subset of the 0/1 set), and `datetime`
otherwise (declared datetime dtype, or vacuous parse success of the empty
sample). -/
theorem empty_column_class_amended (cfg : ProfilingConfig)
    (parses : Val → Bool) (c : Column)
    (hempty : nonNullValues c = [])
    (hpat : cfg.id_column_patterns.all
      (fun p => !strContainsLower c.name p) = true) :
    classifyColumn cfg parses c ≠ .numeric ∧
    classifyColumn cfg parses c ≠ .categorical ∧
    (classifyColumn cfg parses c = .boolean ↔ c.dtype = .numericT) ∧
    (classifyColumn cfg parses c = .datetime ↔ c.dtype ≠ .numericT) := by
  have hany : cfg.id_column_patterns.any
      (fun p => strContainsLower c.name p) = false := by
    rw [List.any_eq_false]
    intro p hp
    have h := (List.all_eq_true.mp hpat) p hp
    simpa using h
  have hid : isIdColumn cfg c = false := by
    simp [isIdColumn, hany, hempty]
  obtain ⟨nm, dt, cs⟩ := c
  cases dt <;>
    simp_all [classifyColumn, hid, hempty]

/-- Witness for the amended C2 on a concrete all-missing column. -/
theorem empty_column_class_amended_witness :
    nonNullValues ⟨"x", Dtype.datetimeT, [none]⟩ = [] ∧
    classifyColumn defaultConfig (fun _ => false)
      ⟨"x", Dtype.datetimeT, [none]⟩ ≠ ColClass.categorical :=
  ⟨by rfl,
    (empty_column_class_amended defaultConfig (fun _ => false)
      ⟨"x", Dtype.datetimeT, [none]⟩ (by rfl) (by decide)).2.1⟩

/-! ## Numeric statistician (`_profile_numeric`) -/

/-- The non-missing values of a numeric column, sorted ascending (pandas
sorts internally before computing quantiles). -/
def sortedVals (l : List ℚ) : List ℚ :=
  List.insertionSort (· ≤ ·) l

theorem sortedVals_sorted (l : List ℚ) :
    List.Sorted (· ≤ ·) (sortedVals l) :=
  List.sorted_insertionSort (· ≤ ·) l

theorem sortedVals_length (l : List ℚ) :
    (sortedVals l).length = l.length :=
  List.length_insertionSort (· ≤ ·) l

/-- Linear-interpolation quantile of a sorted list, as computed by
`pandas.Series.quantile` with the default `interpolation=..linear..`:
position `h = q·(n−1)`, value `x⌊h⌋ + (h − ⌊h⌋)·(x⌊h⌋₊₁ − x⌊h⌋)`. -/
def quantile (l : List ℚ) (q : ℚ) : ℚ :=
  let n := l.length
  let h : ℚ := q * (n - 1)
  let i : ℕ := ⌊h⌋.toNat
  let lo := l.getD i 0
  let hi := l.getD (i + 1) lo
  lo + (h - i) * (hi - lo)

/-- The statistics record built by `_profile_numeric` for a column with at
least one non-missing value.  `skewness`/`kurtosis` are omitted: they are
opaque scipy calls whose NaN behaviour is outside this embedding and no
claim mentions them.  The outlier fields are `none` exactly when the
configured `outlier_method` is not the recognized `"IQR"` (the source then
never writes those keys). -/
structure NumStats where
  count : ℕ
  missing : ℕ
  missing_pct : ℚ
  mean : ℚ
  median : ℚ
  std : ℝ
  min : ℚ
  max : ℚ
  q25 : ℚ
  q75 : ℚ
  outlier_count : Option ℕ
  outlier_pct : Option ℚ

/-- Result of `_profile_numeric`: either the explicit error-marker dict or
a statistics record. -/
inductive NumericResult where
  | error (msg : String)
  | stats (s : NumStats)

/-- Embeds `DataProfiler._profile_numeric` on one numeric column. -/
noncomputable def profileNumeric (cfg : ProfilingConfig)
    (cells : List (Option ℚ)) : NumericResult :=
  let series := cells.filterMap id
  if series.length = 0 then
    .error "No non-null values"
  else
    let s := sortedVals series
    let n := series.length
    let mean := series.sum / n
    let q1 := quantile s (1 / 4)
    let q3 := quantile s (3 / 4)
    let iqr := q3 - q1
    let lowerBound := q1 - cfg.outlier_multiplier * iqr
    let upperBound := q3 + cfg.outlier_multiplier * iqr
    let outliers := series.filter
      (fun v => decide (v < lowerBound) || decide (upperBound < v))
    .stats
      { count := n
        missing := cells.countP (fun v => v.isNone)
        missing_pct := (cells.countP (fun v => v.isNone) : ℚ) / cells.length * 100
        mean := mean
        median := quantile s (1 / 2)
        std := Real.sqrt
          (((series.map (fun x : ℚ => ((x : ℝ) - (mean : ℝ)) ^ 2)).sum) /
            ((n : ℝ) - 1))
        min := s.headD 0
        max := s.getLastD 0
        q25 := q1
        q75 := q3
        outlier_count :=
          if cfg.outlier_method = "IQR" then some outliers.length else none
        outlier_pct :=
          if cfg.outlier_method = "IQR" then
            some ((outliers.length : ℚ) / n * 100)
          else none }

theorem getD_mono_of_sorted {s : List ℚ} (hs : List.Sorted (· ≤ ·) s)
    {i j : ℕ} (hij : i ≤ j) (hj : j < s.length) :
    s.getD i 0 ≤ s.getD j 0 := by
  have hi : i < s.length := lt_of_le_of_lt hij hj
  rw [List.getD_eq_getElem s 0 hi, List.getD_eq_getElem s 0 hj]
  exact List.Sorted.rel_get_of_le hs (a := ⟨i, hi⟩) (b := ⟨j, hj⟩) hij

theorem quantile_eq (l : List ℚ) (q : ℚ) :
    quantile l q =
      l.getD (⌊q * ((l.length : ℚ) - 1)⌋.toNat) 0 +
        (q * ((l.length : ℚ) - 1) - (⌊q * ((l.length : ℚ) - 1)⌋.toNat : ℚ)) *
          (l.getD (⌊q * ((l.length : ℚ) - 1)⌋.toNat + 1)
              (l.getD (⌊q * ((l.length : ℚ) - 1)⌋.toNat) 0) -
            l.getD (⌊q * ((l.length : ℚ) - 1)⌋.toNat) 0) := rfl

/-- The interpolated quantile is monotone in the requested probability on
a sorted list: this is the heart of `min ≤ q25 ≤ median ≤ q75 ≤ max`. -/
theorem quantile_le_quantile {s : List ℚ} (hs : List.Sorted (· ≤ ·) s)
    (hne : s ≠ []) {q r : ℚ} (h0 : 0 ≤ q) (hqr : q ≤ r) (h1 : r ≤ 1) :
    quantile s q ≤ quantile s r := by
  have hn : 1 ≤ s.length := List.length_pos.mpr hne
  have hn1 : (0 : ℚ) ≤ (s.length : ℚ) - 1 := by
    have : (1 : ℚ) ≤ (s.length : ℚ) := by exact_mod_cast hn
    linarith
  rw [quantile_eq s q, quantile_eq s r]
  set n := s.length with hndef
  set hq := q * ((n : ℚ) - 1) with hqdef
  set hr := r * ((n : ℚ) - 1) with hrdef
  have hq0 : 0 ≤ hq := mul_nonneg h0 hn1
  have hr0 : 0 ≤ hr := le_trans hq0 (by
    exact mul_le_mul_of_nonneg_right hqr hn1)
  have hqhr : hq ≤ hr := mul_le_mul_of_nonneg_right hqr hn1
  have hrtop : hr ≤ (n : ℚ) - 1 := by
    have := mul_le_mul_of_nonneg_right h1 hn1
    simpa using this
  set iq := ⌊hq⌋.toNat with iqdef
  set ir := ⌊hr⌋.toNat with irdef
  have hfq : 0 ≤ ⌊hq⌋ := Int.floor_nonneg.mpr hq0
  have hfr : 0 ≤ ⌊hr⌋ := Int.floor_nonneg.mpr hr0
  have hiqz : (iq : ℤ) = ⌊hq⌋ := Int.toNat_of_nonneg hfq
  have hirz : (ir : ℤ) = ⌊hr⌋ := Int.toNat_of_nonneg hfr
  have ciq : (iq : ℚ) ≤ hq := by
    have h := Int.floor_le hq
    rw [← hiqz] at h
    exact_mod_cast h
  have cuq : hq < (iq : ℚ) + 1 := by
    have h := Int.lt_floor_add_one hq
    rw [← hiqz] at h
    exact_mod_cast h
  have cir : (ir : ℚ) ≤ hr := by
    have h := Int.floor_le hr
    rw [← hirz] at h
    exact_mod_cast h
  have cur : hr < (ir : ℚ) + 1 := by
    have h := Int.lt_floor_add_one hr
    rw [← hirz] at h
    exact_mod_cast h
  have hii : iq ≤ ir := by
    have h := Int.floor_le_floor hqhr
    omega
  have hirn : ir < n := by
    have hcast : ((n : ℚ) - 1) = (((n : ℤ) - 1 : ℤ) : ℚ) := by push_cast; ring
    have h := Int.floor_le_floor hrtop
    rw [hcast, Int.floor_intCast] at h
    omega
  set Lq := s.getD iq 0 with Lqdef
  set Hq := s.getD (iq + 1) Lq with Hqdef
  set Lr := s.getD ir 0 with Lrdef
  set Hr := s.getD (ir + 1) Lr with Hrdef
  have hLHq : Lq ≤ Hq := by
    by_cases hcase : iq + 1 < n
    · have he : Hq = s.getD (iq + 1) 0 := by
        rw [Hqdef, List.getD_eq_getElem s Lq hcase, List.getD_eq_getElem s 0 hcase]
      rw [he]
      exact getD_mono_of_sorted hs (Nat.le_succ iq) hcase
    · rw [Hqdef, List.getD_eq_default s Lq (by omega)]
  have hLHr : Lr ≤ Hr := by
    by_cases hcase : ir + 1 < n
    · have he : Hr = s.getD (ir + 1) 0 := by
        rw [Hrdef, List.getD_eq_getElem s Lr hcase, List.getD_eq_getElem s 0 hcase]
      rw [he]
      exact getD_mono_of_sorted hs (Nat.le_succ ir) hcase
    · rw [Hrdef, List.getD_eq_default s Lr (by omega)]
  rcases Nat.lt_or_ge iq ir with hlt | hge
  · -- the two probabilities land in different segments
    have hup : Lq + (hq - (iq : ℚ)) * (Hq - Lq) ≤ Hq := by nlinarith
    have hiq1n : iq + 1 < n := by omega
    have heq : Hq = s.getD (iq + 1) 0 := by
      rw [Hqdef, List.getD_eq_getElem s Lq hiq1n, List.getD_eq_getElem s 0 hiq1n]
    have hstep : s.getD (iq + 1) 0 ≤ s.getD ir 0 :=
      getD_mono_of_sorted hs (by omega) hirn
    have hlow : Lr ≤ Lr + (hr - (ir : ℚ)) * (Hr - Lr) := by nlinarith
    calc Lq + (hq - (iq : ℚ)) * (Hq - Lq) ≤ Hq := hup
      _ = s.getD (iq + 1) 0 := heq
      _ ≤ Lr := hstep
      _ ≤ Lr + (hr - (ir : ℚ)) * (Hr - Lr) := hlow
  · -- same segment
    have heq : iq = ir := le_antisymm hii hge
    have hLL : Lq = Lr := by rw [Lqdef, Lrdef, heq]
    have hHH : Hq = Hr := by rw [Hqdef, Hrdef, heq, hLL]
    rw [hLL, hHH, heq]
    nlinarith

theorem quantile_zero (s : List ℚ) : quantile s 0 = s.headD 0 := by
  cases s <;> simp [quantile]

theorem getD_length_sub_one {s : List ℚ} (h : s ≠ []) :
    s.getD (s.length - 1) 0 = s.getLastD 0 := by
  rw [List.getLastD_eq_getLast?, List.getLast?_eq_getElem?,
    List.getD_eq_getElem?_getD]

theorem quantile_one {s : List ℚ} (hne : s ≠ []) :
    quantile s 1 = s.getLastD 0 := by
  have hn : 1 ≤ s.length := List.length_pos.mpr hne
  rw [quantile_eq]
  have hcast : ((s.length : ℚ) - 1) = (((s.length : ℤ) - 1 : ℤ) : ℚ) := by
    push_cast; ring
  rw [one_mul, hcast, Int.floor_intCast]
  have htn : ((s.length : ℤ) - 1).toNat = s.length - 1 := by omega
  rw [htn]
  have hγ : ((((s.length : ℤ) - 1 : ℤ) : ℚ)) - ((s.length - 1 : ℕ) : ℚ) = 0 := by
    push_cast [Nat.cast_sub hn]; ring
  rw [hγ, zero_mul, add_zero, getD_length_sub_one hne]

theorem ratio_pct_le_100 {k n : ℕ} (hk : k ≤ n) (hn : n ≠ 0) :
    ((k : ℚ) / n) * 100 ≤ 100 := by
  have hnpos : (0 : ℚ) < n := by exact_mod_cast Nat.pos_of_ne_zero hn
  have hkn : (k : ℚ) ≤ n := by exact_mod_cast hk
  rw [div_mul_eq_mul_div, div_le_iff hnpos]
  nlinarith

/-- C4: for every numeric column with at least one non-missing value the
produced statistics satisfy `min ≤ q25 ≤ median ≤ q75 ≤ max`, and
whenever an outlier percentage is produced it lies in `[0, 100]` (it is
produced exactly under the recognized `"IQR"` method, the default). -/
theorem numeric_stats_ordered (cfg : ProfilingConfig)
    (cells : List (Option ℚ)) (h : cells.filterMap id ≠ []) :
    ∃ st, profileNumeric cfg cells = NumericResult.stats st ∧
      st.min ≤ st.q25 ∧ st.q25 ≤ st.median ∧ st.median ≤ st.q75 ∧
      st.q75 ≤ st.max ∧
      (∀ p, st.outlier_pct = some p → 0 ≤ p ∧ p ≤ 100) ∧
      (cfg.outlier_method = "IQR" → st.outlier_pct.isSome) := by
  have hlen : (cells.filterMap id).length ≠ 0 := by
    simpa [List.length_eq_zero] using h
  have hsne : sortedVals (cells.filterMap id) ≠ [] := by
    intro heq
    apply hlen
    rw [← sortedVals_length, heq]
    rfl
  have hsorted := sortedVals_sorted (cells.filterMap id)
  simp only [profileNumeric]
  rw [if_neg hlen]
  refine ⟨_, rfl, ?_, ?_, ?_, ?_, ?_, ?_⟩
  · show (sortedVals (cells.filterMap id)).headD 0 ≤ _
    rw [← quantile_zero]
    exact quantile_le_quantile hsorted hsne (by norm_num) (by norm_num)
      (by norm_num)
  · exact quantile_le_quantile hsorted hsne (by norm_num) (by norm_num)
      (by norm_num)
  · exact quantile_le_quantile hsorted hsne (by norm_num) (by norm_num)
      (by norm_num)
  · show _ ≤ (sortedVals (cells.filterMap id)).getLastD 0
    rw [← quantile_one hsne]
    exact quantile_le_quantile hsorted hsne (by norm_num) (by norm_num)
      (by norm_num)
  · intro p hp
    dsimp only at hp
    by_cases hm : cfg.outlier_method = "IQR"
    · rw [if_pos hm, Option.some_inj] at hp
      subst hp
      have hnpos : (0 : ℚ) < ((cells.filterMap id).length : ℚ) := by
        exact_mod_cast Nat.pos_of_ne_zero hlen
      constructor
      · positivity
      · exact ratio_pct_le_100 (List.length_filter_le _ _) hlen
    · rw [if_neg hm] at hp
      exact absurd hp (by simp)
  · intro hm
    dsimp only
    rw [if_pos hm]
    rfl

/-- Witness for C4 on a concrete numeric column. -/
theorem numeric_stats_ordered_witness :
    ∃ st, profileNumeric defaultConfig [some 1, some 2, some 3] =
        NumericResult.stats st ∧
      st.min ≤ st.q25 ∧ st.q25 ≤ st.median ∧ st.median ≤ st.q75 ∧
      st.q75 ≤ st.max ∧
      (∀ p, st.outlier_pct = some p → 0 ≤ p ∧ p ≤ 100) ∧
      (defaultConfig.outlier_method = "IQR" → st.outlier_pct.isSome) :=
  numeric_stats_ordered defaultConfig [some 1, some 2, some 3] (by decide)

/-- C5: under the (default) IQR method, `outlier_count` is exactly the
number of non-missing values strictly outside the Tukey fences
`[q25 − k·(q75−q25), q75 + k·(q75−q25)]`, where `q25`/`q75` are the
interpolated quartiles of the non-missing values and `k` the configured
multiplier; and on the column `[1,2,3,4,100]` with the default `k = 1.5`
the count is 1. -/
theorem outlier_count_tukey (cfg : ProfilingConfig) (cells : List (Option ℚ))
    (h : cells.filterMap id ≠ []) (hm : cfg.outlier_method = "IQR") :
    (∃ st, profileNumeric cfg cells = NumericResult.stats st ∧
      st.q25 = quantile (sortedVals (cells.filterMap id)) (1 / 4) ∧
      st.q75 = quantile (sortedVals (cells.filterMap id)) (3 / 4) ∧
      st.outlier_count = some ((cells.filterMap id).countP (fun v =>
        decide (v < st.q25 - cfg.outlier_multiplier * (st.q75 - st.q25)) ||
        decide (st.q75 + cfg.outlier_multiplier * (st.q75 - st.q25) < v)))) ∧
    (∃ st, profileNumeric defaultConfig
        [some 1, some 2, some 3, some 4, some 100] = NumericResult.stats st ∧
      st.outlier_count = some 1) := by
  have hlen : (cells.filterMap id).length ≠ 0 := by
    simpa [List.length_eq_zero] using h
  constructor
  · simp only [profileNumeric]
    rw [if_neg hlen]
    refine ⟨_, rfl, rfl, rfl, ?_⟩
    dsimp only
    rw [if_pos hm, List.countP_eq_length_filter]
  · exact ⟨_, rfl, by with_unfolding_all decide⟩

/-- Witness for C5: the general characterization instantiated on the
scenario column `[1,2,3,4,100]`. -/
theorem outlier_count_tukey_witness :
    ∃ st, profileNumeric defaultConfig
        [some 1, some 2, some 3, some 4, some 100] = NumericResult.stats st ∧
      st.outlier_count = some 1 :=
  (outlier_count_tukey defaultConfig [some 1, some 2, some 3, some 4, some 100]
    (by decide) rfl).2

/-- C6: a numeric column that is entirely missing yields the explicit
error-marker object (and nothing is raised — the embedding is a total
function); a column with at least one non-missing value never yields the
marker. -/
theorem numeric_error_marker (cfg : ProfilingConfig)
    (cells : List (Option ℚ)) :
    (cells.filterMap id = [] →
      profileNumeric cfg cells = NumericResult.error "No non-null values") ∧
    (cells.filterMap id ≠ [] →
      ∃ st, profileNumeric cfg cells = NumericResult.stats st) := by
  constructor
  · intro hemp
    simp only [profileNumeric]
    rw [if_pos (by rw [hemp]; rfl)]
  · intro hne
    have hlen : (cells.filterMap id).length ≠ 0 := by
      simpa [List.length_eq_zero] using hne
    simp only [profileNumeric]
    rw [if_neg hlen]
    exact ⟨_, rfl⟩

/-- Witness for C6 on a concrete all-missing column. -/
theorem numeric_error_marker_witness :
    profileNumeric defaultConfig [(none : Option ℚ)] =
      NumericResult.error "No non-null values" :=
  (numeric_error_marker defaultConfig [none]).1 rfl

/-! ## Categorical statistician (`_profile_categorical`) -/

/-- The distinct values of a list in first-occurrence order, accumulating
the values already seen; models the index of `pandas.value_counts` /
`nunique` (which ignore missing cells). -/
def distinctAux (seen : List Val) : List Val → List Val
  | [] => []
  | a :: l => if a ∈ seen then distinctAux seen l else a :: distinctAux (a :: seen) l

/-- Distinct values in first-occurrence order. -/
def distinctVals (l : List Val) : List Val :=
  distinctAux [] l

/-- Insert a `(value, count)` entry into a count-sorted list, descending
by count; an entry moves ahead only of strictly smaller counts, so
entries with equal counts keep their relative order (pandas sorting of
`value_counts` is stable). -/
def insertByCountDesc (a : Val × ℕ) : List (Val × ℕ) → List (Val × ℕ)
  | [] => [a]
  | b :: l => if b.2 ≤ a.2 then a :: b :: l else b :: insertByCountDesc a l

/-- Stable insertion sort by descending count. -/
def sortByCountDesc : List (Val × ℕ) → List (Val × ℕ)
  | [] => []
  | a :: l => insertByCountDesc a (sortByCountDesc l)

/-- Embeds `series.value_counts()`: every distinct non-missing value with
its multiplicity, sorted by descending multiplicity. -/
def valueCounts (vals : List Val) : List (Val × ℕ) :=
  sortByCountDesc ((distinctVals vals).map (fun v => (v, vals.count v)))

/-- One entry of the `top_categories` list. -/
structure TopCategory where
  value : Val
  count : ℕ
  percentage : ℚ
  deriving DecidableEq

/-- The record built by `_profile_categorical`; unlike the numeric and
datetime statisticians there is no error-marker alternative — the
function is total in the source as well. -/
structure CatStats where
  count : ℕ
  missing : ℕ
  missing_pct : ℚ
  unique_count : ℕ
  top_categories : List TopCategory
  entropy : ℝ

/-- Embeds `scipy.stats.entropy` on a list of counts: the counts are
normalized by their own sum and the natural-log Shannon entropy of the
resulting distribution is returned. -/
noncomputable def scipyEntropy (counts : List ℕ) : ℝ :=
  -(counts.map (fun c : ℕ => ((c : ℝ) / ((counts.sum : ℕ) : ℝ)) *
      Real.log ((c : ℝ) / ((counts.sum : ℕ) : ℝ)))).sum

/-- Embeds `DataProfiler._profile_categorical`.  Note the source computes
`value_counts = series.value_counts().head(top_n)` once and feeds this
truncated table both to `top_categories` and to `stats.entropy`. -/
noncomputable def profileCategorical (cfg : ProfilingConfig)
    (cells : List (Option Val)) : CatStats :=
  let series := cells.filterMap id
  let vcounts := (valueCounts series).take cfg.top_categories_count
  let total := series.length
  { count := total
    missing := cells.countP (fun v => v.isNone)
    missing_pct := (cells.countP (fun v => v.isNone) : ℚ) / cells.length * 100
    unique_count := (distinctVals series).length
    top_categories := vcounts.map (fun p =>
      ⟨p.1, p.2, if 0 < total then (p.2 : ℚ) / total * 100 else 0⟩)
    entropy :=
      if 0 < vcounts.length then scipyEntropy (vcounts.map Prod.snd) else 0 }

/-- Modelled from the spec (§4.3/§8): the entropy the specification
describes, computed over the frequency distribution of ALL distinct
non-missing values, not just the top-N table.  Used to compare the
source's behaviour against the spec's words. -/
noncomputable def entropyAllDistinct (cells : List (Option Val)) : ℝ :=
  scipyEntropy ((valueCounts (cells.filterMap id)).map Prod.snd)

theorem mem_distinctAux {seen : List Val} {l : List Val} {v : Val} :
    v ∈ distinctAux seen l ↔ v ∈ l ∧ v ∉ seen := by
  induction l generalizing seen with
  | nil => simp [distinctAux]
  | cons a t ih =>
    by_cases ha : a ∈ seen
    · rw [distinctAux, if_pos ha, ih]
      constructor
      · rintro ⟨hv, hs⟩
        exact ⟨List.mem_cons_of_mem a hv, hs⟩
      · rintro ⟨hv, hs⟩
        rcases List.mem_cons.mp hv with rfl | hv
        · exact absurd ha hs
        · exact ⟨hv, hs⟩
    · rw [distinctAux, if_neg ha]
      constructor
      · intro hv
        rcases List.mem_cons.mp hv with rfl | hv
        · exact ⟨List.mem_cons_self v t, ha⟩
        · rw [ih] at hv
          refine ⟨List.mem_cons_of_mem a hv.1, ?_⟩
          intro hv2
          exact hv.2 (List.mem_cons_of_mem a hv2)
      · rintro ⟨hv, hs⟩
        rcases List.mem_cons.mp hv with rfl | hv
        · exact List.mem_cons_self v _
        · by_cases hva : v = a
          · subst hva
            exact List.mem_cons_self v _
          · refine List.mem_cons_of_mem a (ih.mpr ⟨hv, ?_⟩)
            intro hmem
            rcases List.mem_cons.mp hmem with h | h
            · exact hva h
            · exact hs h

theorem mem_distinctVals {l : List Val} {v : Val} :
    v ∈ distinctVals l ↔ v ∈ l := by
  rw [distinctVals, mem_distinctAux]
  simp

theorem distinctVals_nil_iff {l : List Val} :
    distinctVals l = [] ↔ l = [] := by
  cases l with
  | nil => simp [distinctVals, distinctAux]
  | cons a t =>
    simp only [distinctVals, distinctAux, List.mem_nil_iff, if_neg]
    constructor
    · intro h
      exact absurd h (by simp)
    · intro h
      exact absurd h (by simp)

theorem insertByCountDesc_perm (a : Val × ℕ) (l : List (Val × ℕ)) :
    (insertByCountDesc a l).Perm (a :: l) := by
  induction l with
  | nil => rfl
  | cons b t ih =>
    rw [insertByCountDesc]
    by_cases hb : b.2 ≤ a.2
    · rw [if_pos hb]
    · rw [if_neg hb]
      exact (List.Perm.cons b ih).trans (List.Perm.swap a b t)

theorem sortByCountDesc_perm (l : List (Val × ℕ)) :
    (sortByCountDesc l).Perm l := by
  induction l with
  | nil => rfl
  | cons a t ih =>
    exact (insertByCountDesc_perm a (sortByCountDesc t)).trans (ih.cons a)

theorem valueCounts_length (vals : List Val) :
    (valueCounts vals).length = (distinctVals vals).length := by
  rw [valueCounts, (sortByCountDesc_perm _).length_eq, List.length_map]

theorem valueCounts_mem {vals : List Val} {p : Val × ℕ}
    (hp : p ∈ valueCounts vals) : p.1 ∈ vals ∧ p.2 = vals.count p.1 := by
  rw [valueCounts, (sortByCountDesc_perm _).mem_iff, List.mem_map] at hp
  obtain ⟨v, hv, rfl⟩ := hp
  exact ⟨mem_distinctVals.mp hv, rfl⟩

theorem valueCounts_count_pos {vals : List Val} {p : Val × ℕ}
    (hp : p ∈ valueCounts vals) : 1 ≤ p.2 := by
  obtain ⟨hmem, hcount⟩ := valueCounts_mem hp
  rw [hcount]
  exact List.count_pos_iff.mpr hmem

theorem list_sum_nonpos {l : List ℝ} (h : ∀ x ∈ l, x ≤ 0) : l.sum ≤ 0 := by
  induction l with
  | nil => simp
  | cons a t ih =>
    rw [List.sum_cons]
    have ha := h a (List.mem_cons_self a t)
    have ht := ih (fun x hx => h x (List.mem_cons_of_mem a hx))
    linarith

theorem entropy_term_nonpos {c T : ℝ} (hc : 0 ≤ c) (hcT : c ≤ T) :
    c / T * Real.log (c / T) ≤ 0 := by
  rcases eq_or_lt_of_le hc with hc0 | hc0
  · rw [← hc0]
    simp
  · have hT0 : 0 < T := lt_of_lt_of_le hc0 hcT
    have hp0 : 0 < c / T := div_pos hc0 hT0
    have hp1 : c / T ≤ 1 := (div_le_one hT0).mpr hcT
    have hlog : Real.log (c / T) ≤ 0 := Real.log_nonpos hp0.le hp1
    nlinarith

theorem count_le_sum {l : List ℕ} {c : ℕ} (hc : c ∈ l) : c ≤ l.sum :=
  List.single_le_sum (fun x _ => Nat.zero_le x) c hc

theorem scipyEntropy_nonneg {l : List ℕ} (h : ∀ c ∈ l, 1 ≤ c) :
    0 ≤ scipyEntropy l := by
  rw [scipyEntropy, neg_nonneg]
  apply list_sum_nonpos
  intro x hx
  rw [List.mem_map] at hx
  obtain ⟨c, hc, rfl⟩ := hx
  have hcT : ((c : ℕ) : ℝ) ≤ ((l.sum : ℕ) : ℝ) := by
    exact_mod_cast count_le_sum hc
  exact entropy_term_nonpos (by positivity) hcT

theorem scipyEntropy_singleton {c : ℕ} (hc : 1 ≤ c) :
    scipyEntropy [c] = 0 := by
  have hc0 : ((c : ℕ) : ℝ) ≠ 0 := by
    have : 0 < c := hc
    positivity
  rw [scipyEntropy]
  simp only [List.map, List.sum_cons, List.sum_nil, add_zero]
  rw [div_self hc0, Real.log_one, mul_zero, neg_zero]

theorem scipyEntropy_pos {l : List ℕ} (h : ∀ c ∈ l, 1 ≤ c)
    (hlen : 2 ≤ l.length) : 0 < scipyEntropy l := by
  match l, h, hlen with
  | a :: b :: rest, h, _ =>
    have ha : 1 ≤ a := h a (by simp)
    have hb : 1 ≤ b := h b (by simp)
    set S : ℕ := (a :: b :: rest).sum with hS
    have haS : a + 1 ≤ S := by
      rw [hS]
      simp only [List.sum_cons]
      have : 0 ≤ rest.sum := Nat.zero_le _
      omega
    have hSr : ((a : ℕ) : ℝ) < ((S : ℕ) : ℝ) := by
      exact_mod_cast Nat.lt_of_lt_of_le (Nat.lt_succ_self a) haS
    have ha0 : (0 : ℝ) < ((a : ℕ) : ℝ) := by
      have : 0 < a := ha
      positivity
    have hS0 : (0 : ℝ) < ((S : ℕ) : ℝ) := lt_trans ha0 hSr
    have hpa0 : 0 < ((a : ℕ) : ℝ) / ((S : ℕ) : ℝ) := div_pos ha0 hS0
    have hpa1 : ((a : ℕ) : ℝ) / ((S : ℕ) : ℝ) < 1 := (div_lt_one hS0).mpr hSr
    have hloga : Real.log (((a : ℕ) : ℝ) / ((S : ℕ) : ℝ)) < 0 :=
      Real.log_neg hpa0 hpa1
    have hterma : ((a : ℕ) : ℝ) / ((S : ℕ) : ℝ) *
        Real.log (((a : ℕ) : ℝ) / ((S : ℕ) : ℝ)) < 0 :=
      mul_neg_of_pos_of_neg hpa0 hloga
    have hrest : ((b :: rest).map (fun c : ℕ => ((c : ℝ) / ((S : ℕ) : ℝ)) *
        Real.log ((c : ℝ) / ((S : ℕ) : ℝ)))).sum ≤ 0 := by
      apply list_sum_nonpos
      intro x hx
      rw [List.mem_map] at hx
      obtain ⟨c, hc, rfl⟩ := hx
      have hc1 : 1 ≤ c := h c (List.mem_cons_of_mem a hc)
      have hcS : ((c : ℕ) : ℝ) ≤ ((S : ℕ) : ℝ) := by
        have hle : c ≤ S := count_le_sum (List.mem_cons_of_mem a hc)
        exact_mod_cast hle
      exact entropy_term_nonpos (by positivity) hcS
    rw [scipyEntropy, neg_pos, ← hS, List.map_cons, List.sum_cons]
    linarith

theorem scipyEntropy_replicate {k : ℕ} (hk : 1 ≤ k) :
    scipyEntropy (List.replicate k 1) = Real.log k := by
  have hsum : (List.replicate k 1).sum = k := by
    rw [List.sum_replicate, smul_eq_mul, mul_one]
  have hk0 : ((k : ℕ) : ℝ) ≠ 0 := by
    have : 0 < k := hk
    positivity
  rw [scipyEntropy, hsum, List.map_replicate, List.sum_replicate,
    nsmul_eq_mul]
  have h1 : (((1 : ℕ) : ℝ) / ((k : ℕ) : ℝ)) = ((k : ℕ) : ℝ)⁻¹ := by
    rw [Nat.cast_one, one_div]
  rw [h1, Real.log_inv]
  field_simp

/-- A categorical column holding eleven pairwise-distinct values. -/
def elevenDistinct : List (Option Val) :=
  (List.range 11).map (fun k => some (Val.num k))

/-- C3 counterexample: with the default `top_categories_count = 10`, a
column of 11 distinct values is reported with entropy `log 10` — the
entropy of the truncated, renormalized top-10 table — while the Shannon
entropy over all distinct values is `log 11`; the two differ, refuting
the claim that entropy is computed over all distinct values. -/
theorem entropy_topn_counterexample :
    (profileCategorical defaultConfig elevenDistinct).entropy = Real.log 10 ∧
    entropyAllDistinct elevenDistinct = Real.log 11 ∧
    (profileCategorical defaultConfig elevenDistinct).entropy ≠
      entropyAllDistinct elevenDistinct := by
  have h10 : ((valueCounts (elevenDistinct.filterMap id)).take
      defaultConfig.top_categories_count).map Prod.snd =
        List.replicate 10 1 := by
    with_unfolding_all decide
  have h11 : (valueCounts (elevenDistinct.filterMap id)).map Prod.snd =
      List.replicate 11 1 := by
    with_unfolding_all decide
  have hlen : 0 < ((valueCounts (elevenDistinct.filterMap id)).take
      defaultConfig.top_categories_count).length := by
    with_unfolding_all decide
  have hrep : (profileCategorical defaultConfig elevenDistinct).entropy =
      Real.log 10 := by
    dsimp only [profileCategorical]
    rw [if_pos hlen, h10, scipyEntropy_replicate (by norm_num)]
    norm_num
  have hall : entropyAllDistinct elevenDistinct = Real.log 11 := by
    rw [entropyAllDistinct, h11, scipyEntropy_replicate (by norm_num)]
    norm_num
  refine ⟨hrep, hall, ?_⟩
  rw [hrep, hall]
  exact ne_of_lt (Real.log_lt_log (by norm_num) (by norm_num))

theorem scipyEntropy_nil : scipyEntropy [] = 0 := by
  simp [scipyEntropy]

/-- C3 amended: the reported entropy is the natural-log Shannon entropy
of the renormalized frequency distribution of the top-N most frequent
distinct values (N = `top_categories_count`), not of all distinct values;
it is still nonnegative, 0 for a column with no non-missing values, and —
whenever N ≥ 2, in particular at the default N = 10 — it is 0 exactly
when the column has at most one distinct non-missing value; and whenever
the number of distinct values is at most N the truncation is vacuous and
the reported entropy agrees with the all-distinct entropy. -/
theorem entropy_amended (cfg : ProfilingConfig) (cells : List (Option Val))
    (hN : 2 ≤ cfg.top_categories_count) :
    0 ≤ (profileCategorical cfg cells).entropy ∧
    (cells.filterMap id = [] → (profileCategorical cfg cells).entropy = 0) ∧
    ((profileCategorical cfg cells).entropy = 0 ↔
      (profileCategorical cfg cells).unique_count ≤ 1) ∧
    ((profileCategorical cfg cells).unique_count ≤ cfg.top_categories_count →
      (profileCategorical cfg cells).entropy = entropyAllDistinct cells) := by
  dsimp only [profileCategorical]
  have hcounts : ∀ c ∈ (((valueCounts (cells.filterMap id)).take
      cfg.top_categories_count).map Prod.snd), 1 ≤ c := by
    intro c hc
    rw [List.mem_map] at hc
    obtain ⟨p, hp, rfl⟩ := hc
    exact valueCounts_count_pos (List.take_subset _ _ hp)
  have hvclen : ((valueCounts (cells.filterMap id)).take
      cfg.top_categories_count).length =
        min cfg.top_categories_count (distinctVals (cells.filterMap id)).length := by
    rw [List.length_take, valueCounts_length]
  have hzero1 : (distinctVals (cells.filterMap id)).length ≤ 1 →
      (if 0 < ((valueCounts (cells.filterMap id)).take
          cfg.top_categories_count).length then
        scipyEntropy (((valueCounts (cells.filterMap id)).take
          cfg.top_categories_count).map Prod.snd)
      else 0) = 0 := by
    intro hd
    rcases Nat.le_one_iff_eq_zero_or_eq_one.mp hd with hd0 | hd1
    · have hnil : distinctVals (cells.filterMap id) = [] :=
        List.length_eq_zero.mp hd0
      have hvc : valueCounts (cells.filterMap id) = [] := by
        rw [valueCounts, hnil]
        rfl
      rw [hvc]
      simp
    · obtain ⟨v, hv⟩ := List.length_eq_one.mp hd1
      have hvc : valueCounts (cells.filterMap id) =
          [(v, (cells.filterMap id).count v)] := by
        rw [valueCounts, hv]
        rfl
      have hvmem : v ∈ cells.filterMap id :=
        mem_distinctVals.mp (by rw [hv]; exact List.mem_cons_self v [])
      have hcount : 1 ≤ (cells.filterMap id).count v :=
        List.count_pos_iff.mpr hvmem
      rw [hvc, List.take_of_length_le (by
        simp only [List.length_cons, List.length_nil]
        omega)]
      rw [if_pos (by simp), List.map_cons, List.map_nil]
      exact scipyEntropy_singleton hcount
  have hpos2 : 2 ≤ (distinctVals (cells.filterMap id)).length →
      0 < scipyEntropy (((valueCounts (cells.filterMap id)).take
        cfg.top_categories_count).map Prod.snd) := by
    intro hd
    apply scipyEntropy_pos hcounts
    rw [List.length_map, hvclen]
    omega
  refine ⟨?_, ?_, ?_, ?_⟩
  · by_cases hd : 2 ≤ (distinctVals (cells.filterMap id)).length
    · have hp := hpos2 hd
      have hlen : 0 < ((valueCounts (cells.filterMap id)).take
          cfg.top_categories_count).length := by
        rw [hvclen]; omega
      rw [if_pos hlen]
      exact hp.le
    · rw [hzero1 (by omega)]
  · intro hemp
    apply hzero1
    rw [hemp]
    simp [distinctVals, distinctAux]
  · constructor
    · intro hz
      by_contra hgt
      have hd : 2 ≤ (distinctVals (cells.filterMap id)).length := by omega
      have hlen : 0 < ((valueCounts (cells.filterMap id)).take
          cfg.top_categories_count).length := by
        rw [hvclen]; omega
      rw [if_pos hlen] at hz
      exact absurd hz (ne_of_gt (hpos2 hd))
    · exact hzero1
  · intro hle
    have hfull : (valueCounts (cells.filterMap id)).take
        cfg.top_categories_count = valueCounts (cells.filterMap id) :=
      List.take_of_length_le (by rw [valueCounts_length]; exact hle)
    rw [entropyAllDistinct, hfull]
    by_cases hd : 0 < (valueCounts (cells.filterMap id)).length
    · rw [if_pos hd]
    · rw [if_neg hd]
      have hnil : valueCounts (cells.filterMap id) = [] :=
        List.length_eq_zero.mp (by omega)
      rw [hnil, List.map_nil, scipyEntropy_nil]

/-- Witness for the amended C3 on a concrete three-row column. -/
theorem entropy_amended_witness :
    0 ≤ (profileCategorical defaultConfig
      [some (Val.str "A"), some (Val.str "A"), some (Val.str "B")]).entropy :=
  (entropy_amended defaultConfig
    [some (Val.str "A"), some (Val.str "A"), some (Val.str "B")]
    (by decide)).1

/-- C10: the categorical statistician is total — its result type has no
error-marker alternative, unlike `profileNumeric` — and on a column with
zero non-missing values it returns a well-formed record with `count = 0`,
`unique_count = 0`, an empty `top_categories` list and entropy 0. -/
theorem categorical_empty_total (cfg : ProfilingConfig)
    (cells : List (Option Val)) (h : cells.filterMap id = []) :
    (profileCategorical cfg cells).count = 0 ∧
    (profileCategorical cfg cells).unique_count = 0 ∧
    (profileCategorical cfg cells).top_categories = [] ∧
    (profileCategorical cfg cells).entropy = 0 := by
  dsimp only [profileCategorical]
  rw [h]
  refine ⟨rfl, rfl, ?_, ?_⟩
  · simp [valueCounts, distinctVals, distinctAux, sortByCountDesc]
  · simp [valueCounts, distinctVals, distinctAux, sortByCountDesc]

/-- Witness for C10 on a concrete all-missing column. -/
theorem categorical_empty_total_witness :
    (profileCategorical defaultConfig [none, none]).count = 0 ∧
    (profileCategorical defaultConfig [none, none]).unique_count = 0 ∧
    (profileCategorical defaultConfig [none, none]).top_categories = [] ∧
    (profileCategorical defaultConfig [none, none]).entropy = 0 :=
  categorical_empty_total defaultConfig [none, none] rfl

/-! ## Profiler construction (`DataProfiler.__init__`) -/

/-- The `profiling` section of the configuration dict as passed to the
constructor: each recognized option may be present or absent. -/
structure RawProfilingConfig where
  id_column_patterns : Option (List String)
  high_cardinality_threshold : Option ℚ
  correlation_threshold : Option ℚ
  outlier_method : Option String
  outlier_multiplier : Option ℚ
  high_missing_threshold : Option ℚ
  top_categories_count : Option ℕ
  deriving DecidableEq

/-- Embeds `DataProfiler.__init__`: every recognized option is read with
`dict.get(key, default)` and stored as given.  The source performs no
range validation whatsoever and has no exception path (and no
`ConfigurationError` type exists anywhere in the repository), so the
embedding is a total function. -/
def profilerInit (raw : RawProfilingConfig) : ProfilingConfig :=
  { id_column_patterns := raw.id_column_patterns.getD ["id", "index", "key"]
    high_cardinality_threshold := raw.high_cardinality_threshold.getD (95 / 100)
    correlation_threshold := raw.correlation_threshold.getD (6 / 10)
    outlier_method := raw.outlier_method.getD "IQR"
    outlier_multiplier := raw.outlier_multiplier.getD (3 / 2)
    high_missing_threshold := raw.high_missing_threshold.getD (1 / 2)
    top_categories_count := raw.top_categories_count.getD 10 }

/-- C8 counterexample: construction with an out-of-range (negative)
outlier multiplier succeeds and stores the negative value; no error is
surfaced at construction — `profilerInit`, like the source `__init__`,
is total and contains no validation, refuting the claim that an
out-of-range recognized option raises a `ConfigurationError` there. -/
theorem config_validation_counterexample :
    (profilerInit ⟨none, none, none, none, some (-1), none, none⟩).outlier_multiplier
      = -1 ∧ ((-1 : ℚ) < 0) := by
  exact ⟨rfl, by norm_num⟩

/-- C8 amended: Profiler construction never fails for any configuration;
each recognized option value — in range or not — is stored exactly as
given, and the documented default is used only when the option is absent.
Out-of-range values therefore flow into the profiling run itself. -/
theorem profiler_init_amended (raw : RawProfilingConfig) :
    (∀ q, raw.outlier_multiplier = some q →
      (profilerInit raw).outlier_multiplier = q) ∧
    (raw.outlier_multiplier = none →
      (profilerInit raw).outlier_multiplier = 3 / 2) ∧
    (∀ q, raw.correlation_threshold = some q →
      (profilerInit raw).correlation_threshold = q) ∧
    (raw.correlation_threshold = none →
      (profilerInit raw).correlation_threshold = 6 / 10) ∧
    (∀ q, raw.high_cardinality_threshold = some q →
      (profilerInit raw).high_cardinality_threshold = q) ∧
    (∀ q, raw.high_missing_threshold = some q →
      (profilerInit raw).high_missing_threshold = q) := by
  refine ⟨?_, ?_, ?_, ?_, ?_, ?_⟩ <;> intro h1 <;>
    first
      | (intro h2; simp [profilerInit, h2])
      | simp [profilerInit, h1]

/-- Witness for the amended C8: a negative multiplier is stored as-is. -/
theorem profiler_init_amended_witness :
    (profilerInit ⟨none, none, none, none, some (-1), none, none⟩).outlier_multiplier
      = -1 :=
  (profiler_init_amended ⟨none, none, none, none, some (-1), none, none⟩).1
    (-1) rfl

/-! ## Datetime frequency inference (`_profile_datetime`) -/

/-- Valid timestamps sorted ascending (`series.sort_values()`), on the
integer tick representation of timestamps. -/
def sortedTimes (l : List ℤ) : List ℤ :=
  List.insertionSort (· ≤ ·) l

/-- Successive differences of the sorted timestamps
(`.diff().dropna()`: `n − 1` values for `n` timestamps). -/
def successiveDiffs (l : List ℤ) : List ℤ :=
  ((sortedTimes l).zip (sortedTimes l).tail).map (fun p => p.2 - p.1)

/-- pandas `Series.mode()`: the distinct values of maximal multiplicity,
sorted ascending. -/
def modeList (l : List ℤ) : List ℤ :=
  List.insertionSort (· ≤ ·)
    (l.dedup.filter (fun v => l.dedup.all (fun w => decide (l.count w ≤ l.count v))))

/-- Models `str()` of a timedelta on the integer tick representation. -/
def showTimedelta (d : ℤ) : String :=
  toString d

/-- Embeds the frequency-inference step of `_profile_datetime`: the value
stored under the `inferred_frequency` key, with `none` for an absent key.
The step runs only when more than one valid timestamp exists;
`most_common_diff` is `mode()[0]` when the mode list is nonempty and
`None` otherwise; the Python truthiness test `if most_common_diff:` drops
both `None` and a zero timedelta.  The `except` branch that would write
the `"Unknown"` sentinel is unreachable: every operation in this step is
total. -/
def inferredFrequency (timestamps : List ℤ) : Option String :=
  if 1 < timestamps.length then
    match (modeList (successiveDiffs timestamps)).head? with
    | some d => if d ≠ 0 then some (showTimedelta d) else none
    | none => none
  else
    none

/-- C9 counterexample: with a single valid timestamp (empty difference
list) the `inferred_frequency` field is simply absent, not the
`"unknown"` sentinel the claim requires; and with two equal timestamps
(modal difference 0) the field is again absent instead of reporting the
most common difference. -/
theorem inferred_frequency_counterexample :
    inferredFrequency [5] = none ∧
    inferredFrequency [7, 7] = none ∧
    (none : Option String) ≠ some "Unknown" ∧
    (none : Option String) ≠ some (showTimedelta 0) :=
  ⟨rfl, by decide, by decide, by decide⟩

theorem list_exists_max_count (l : List ℤ) (L : List ℤ) (hL : L ≠ []) :
    ∃ v ∈ L, ∀ w ∈ L, l.count w ≤ l.count v := by
  induction L with
  | nil => exact absurd rfl hL
  | cons a t ih =>
    cases t with
    | nil =>
      refine ⟨a, List.mem_cons_self a [], ?_⟩
      intro w hw
      rcases List.mem_cons.mp hw with rfl | hw
      · exact le_refl _
      · exact absurd hw (List.not_mem_nil w)
    | cons b t2 =>
      obtain ⟨v, hv, hmax⟩ := ih (by simp)
      by_cases hav : l.count v ≤ l.count a
      · refine ⟨a, List.mem_cons_self a _, ?_⟩
        intro w hw
        rcases List.mem_cons.mp hw with rfl | hw
        · exact le_refl _
        · exact le_trans (hmax w hw) hav
      · refine ⟨v, List.mem_cons_of_mem a hv, ?_⟩
        intro w hw
        rcases List.mem_cons.mp hw with rfl | hw
        · omega
        · exact hmax w hw

/-- C9 amended: the frequency-inference step is a total function (nothing
can raise, so the `"Unknown"` sentinel of the dead `except` branch is
never produced); with at most one valid timestamp the field is absent;
with at least two, the head of the mode list of successive differences is
a most-frequent difference `d`, and the field holds `str(d)` when
`d ≠ 0` and is absent when `d = 0` or when no nonzero mode exists
(Python truthiness of a timedelta). -/
theorem inferred_frequency_amended (ts : List ℤ) :
    (ts.length ≤ 1 → inferredFrequency ts = none) ∧
    (2 ≤ ts.length → ∃ d,
      (modeList (successiveDiffs ts)).head? = some d ∧
      d ∈ successiveDiffs ts ∧
      (∀ e ∈ successiveDiffs ts,
        (successiveDiffs ts).count e ≤ (successiveDiffs ts).count d) ∧
      inferredFrequency ts =
        if d = 0 then none else some (showTimedelta d)) := by
  constructor
  · intro h
    rw [inferredFrequency, if_neg (by omega)]
  · intro h
    have hst : (sortedTimes ts).length = ts.length :=
      List.length_insertionSort _ _
    have hlen : (successiveDiffs ts).length = ts.length - 1 := by
      rw [successiveDiffs, List.length_map, List.length_zip,
        List.length_tail, hst]
      omega
    have hne : successiveDiffs ts ≠ [] := by
      intro hnil
      rw [hnil] at hlen
      simp only [List.length_nil] at hlen
      omega
    have hdne : (successiveDiffs ts).dedup ≠ [] := by
      obtain ⟨x, hx⟩ := List.exists_mem_of_ne_nil _ hne
      intro hnil
      have hxs : x ∈ (successiveDiffs ts).dedup := List.mem_dedup.mpr hx
      rw [hnil] at hxs
      exact List.not_mem_nil x hxs
    obtain ⟨v, hv, hmax⟩ :=
      list_exists_max_count (successiveDiffs ts)
        ((successiveDiffs ts).dedup) hdne
    have hvfil : v ∈ (successiveDiffs ts).dedup.filter
        (fun u => (successiveDiffs ts).dedup.all
          (fun w => decide ((successiveDiffs ts).count w ≤
            (successiveDiffs ts).count u))) := by
      rw [List.mem_filter]
      refine ⟨hv, ?_⟩
      rw [List.all_eq_true]
      intro w hw
      exact decide_eq_true (hmax w hw)
    have hmne : modeList (successiveDiffs ts) ≠ [] := by
      intro hnil
      have hvm : v ∈ modeList (successiveDiffs ts) := by
        rw [modeList, (List.perm_insertionSort _ _).mem_iff]
        exact hvfil
      rw [hnil] at hvm
      exact List.not_mem_nil v hvm
    have hd : (modeList (successiveDiffs ts)).head? =
        some ((modeList (successiveDiffs ts)).head hmne) :=
      List.head?_eq_head hmne
    set d := (modeList (successiveDiffs ts)).head hmne with hddef
    have hdmem : d ∈ modeList (successiveDiffs ts) := List.head_mem hmne
    have hdfil : d ∈ (successiveDiffs ts).dedup.filter
        (fun u => (successiveDiffs ts).dedup.all
          (fun w => decide ((successiveDiffs ts).count w ≤
            (successiveDiffs ts).count u))) := by
      rw [modeList, (List.perm_insertionSort _ _).mem_iff] at hdmem
      exact hdmem
    rw [List.mem_filter] at hdfil
    have hdiffs : d ∈ successiveDiffs ts := List.mem_dedup.mp hdfil.1
    have hcount : ∀ e ∈ successiveDiffs ts,
        (successiveDiffs ts).count e ≤ (successiveDiffs ts).count d := by
      intro e he
      have hall := List.all_eq_true.mp hdfil.2 e (List.mem_dedup.mpr he)
      exact of_decide_eq_true hall
    refine ⟨d, hd, hdiffs, hcount, ?_⟩
    rw [inferredFrequency, if_pos (by omega), hd]
    by_cases hd0 : d = 0
    · simp [hd0]
    · simp [hd0]

/-- Witness for the amended C9 on two concrete timestamps. -/
theorem inferred_frequency_amended_witness :
    ∃ d, (modeList (successiveDiffs [0, 5])).head? = some d ∧
      d ∈ successiveDiffs [0, 5] ∧
      (∀ e ∈ successiveDiffs [0, 5],
        (successiveDiffs [0, 5]).count e ≤ (successiveDiffs [0, 5]).count d) ∧
      inferredFrequency [0, 5] =
        if d = 0 then none else some (showTimedelta d) :=
  (inferred_frequency_amended [0, 5]).2 (by decide)

/-! ## Correlation analyzer (`_compute_correlations`) -/

/-- One record of the `strong_correlations` list. -/
structure CorrEntry where
  column1 : String
  column2 : String
  correlation : ℚ
  strength : String
  deriving DecidableEq

/-- All ordered pairs `(i, j)` with `i < j`, in the row-major order of
the source's double loop over the numeric column list. -/
def pairsOf : List String → List (String × String)
  | [] => []
  | x :: xs => (xs.map (fun y => (x, y))) ++ pairsOf xs

/-- Insert an entry into a list sorted by descending absolute
correlation; an entry moves ahead only of strictly smaller absolute
values, so equal keys keep their relative order, modelling Python's
stable `list.sort(key = abs, reverse = True)`. -/
def insertByAbsDesc (a : CorrEntry) : List CorrEntry → List CorrEntry
  | [] => [a]
  | b :: l => if |b.correlation| ≤ |a.correlation| then a :: b :: l
      else b :: insertByAbsDesc a l

/-- Stable insertion sort by descending absolute correlation. -/
def sortByAbsDesc : List CorrEntry → List CorrEntry
  | [] => []
  | a :: l => insertByAbsDesc a (sortByAbsDesc l)

/-- Embeds the strong-correlation part of `_compute_correlations`,
parameterized by the pairwise Pearson correlation matrix `corr` (the
value of `corr_matrix.loc[c1, c2]`, an opaque pandas computation over the
numeric columns).  Fewer than two numeric columns yield the empty list. -/
def strongCorrelations (cfg : ProfilingConfig) (numericCols : List String)
    (corr : String → String → ℚ) : List CorrEntry :=
  if numericCols.length < 2 then []
  else
    sortByAbsDesc ((pairsOf numericCols).filterMap (fun p =>
      if cfg.correlation_threshold ≤ |corr p.1 p.2| then
        some ⟨p.1, p.2, corr p.1 p.2,
          if 0 < corr p.1 p.2 then "positive" else "negative"⟩
      else none))

theorem insertByAbsDesc_perm (a : CorrEntry) (l : List CorrEntry) :
    (insertByAbsDesc a l).Perm (a :: l) := by
  induction l with
  | nil => rfl
  | cons b t ih =>
    rw [insertByAbsDesc]
    by_cases hb : |b.correlation| ≤ |a.correlation|
    · rw [if_pos hb]
    · rw [if_neg hb]
      exact (List.Perm.cons b ih).trans (List.Perm.swap a b t)

theorem sortByAbsDesc_perm (l : List CorrEntry) :
    (sortByAbsDesc l).Perm l := by
  induction l with
  | nil => rfl
  | cons a t ih =>
    exact (insertByAbsDesc_perm a (sortByAbsDesc t)).trans (ih.cons a)

theorem insertByAbsDesc_pairwise {a : CorrEntry} {l : List CorrEntry}
    (h : l.Pairwise (fun x y => |y.correlation| ≤ |x.correlation|)) :
    (insertByAbsDesc a l).Pairwise
      (fun x y => |y.correlation| ≤ |x.correlation|) := by
  induction l with
  | nil => simp [insertByAbsDesc]
  | cons b t ih =>
    rw [List.pairwise_cons] at h
    obtain ⟨hb, ht⟩ := h
    rw [insertByAbsDesc]
    by_cases hcond : |b.correlation| ≤ |a.correlation|
    · rw [if_pos hcond, List.pairwise_cons]
      refine ⟨?_, List.pairwise_cons.mpr ⟨hb, ht⟩⟩
      intro x hx
      rcases List.mem_cons.mp hx with rfl | hx
      · exact hcond
      · exact le_trans (hb x hx) hcond
    · rw [if_neg hcond, List.pairwise_cons]
      refine ⟨?_, ih ht⟩
      intro x hx
      have hx2 : x ∈ a :: t := (insertByAbsDesc_perm a t).mem_iff.mp hx
      rcases List.mem_cons.mp hx2 with rfl | hx2
      · push_neg at hcond
        exact le_of_lt hcond
      · exact hb x hx2

theorem sortByAbsDesc_pairwise (l : List CorrEntry) :
    (sortByAbsDesc l).Pairwise
      (fun x y => |y.correlation| ≤ |x.correlation|) := by
  induction l with
  | nil => exact List.Pairwise.nil
  | cons a t ih => exact insertByAbsDesc_pairwise ih

theorem pairsOf_sublist {l : List String} {p : String × String}
    (hp : p ∈ pairsOf l) : [p.1, p.2].Sublist l := by
  induction l with
  | nil => simp [pairsOf] at hp
  | cons x xs ih =>
    rw [pairsOf, List.mem_append] at hp
    rcases hp with hp | hp
    · rw [List.mem_map] at hp
      obtain ⟨y, hy, rfl⟩ := hp
      exact List.Sublist.cons₂ x (List.singleton_sublist.mpr hy)
    · exact (ih hp).cons x

/-- C7: every entry of `strong_correlations` names two distinct numeric
columns (distinct when the numeric column list has no duplicate names),
carries their signed correlation with absolute value at least the
configured threshold, is tagged `positive` exactly when the correlation
is positive (and `negative` otherwise, including zero), and the list is
sorted in descending order of absolute correlation. -/
theorem strong_correlations_sound (cfg : ProfilingConfig)
    (numericCols : List String) (corr : String → String → ℚ)
    (hnd : numericCols.Nodup) :
    (∀ e ∈ strongCorrelations cfg numericCols corr,
      e.column1 ∈ numericCols ∧ e.column2 ∈ numericCols ∧
      e.column1 ≠ e.column2 ∧
      e.correlation = corr e.column1 e.column2 ∧
      cfg.correlation_threshold ≤ |e.correlation| ∧
      e.strength = (if 0 < e.correlation then "positive" else "negative")) ∧
    List.Pairwise (fun a b : CorrEntry => |b.correlation| ≤ |a.correlation|)
      (strongCorrelations cfg numericCols corr) := by
  rw [strongCorrelations]
  by_cases hlen : numericCols.length < 2
  · rw [if_pos hlen]
    exact ⟨fun e he => absurd he (List.not_mem_nil e), List.Pairwise.nil⟩
  · rw [if_neg hlen]
    constructor
    · intro e he
      rw [(sortByAbsDesc_perm _).mem_iff, List.mem_filterMap] at he
      obtain ⟨p, hp, hfe⟩ := he
      by_cases hth : cfg.correlation_threshold ≤ |corr p.1 p.2|
      · rw [if_pos hth, Option.some_inj] at hfe
        subst hfe
        have hsub := pairsOf_sublist hp
        have hmem1 : p.1 ∈ numericCols := hsub.subset (by simp)
        have hmem2 : p.2 ∈ numericCols := hsub.subset (by simp)
        have hnd2 : ([p.1, p.2] : List String).Nodup := hnd.sublist hsub
        have hne : p.1 ≠ p.2 := by
          rw [List.nodup_cons] at hnd2
          simpa using hnd2.1
        exact ⟨hmem1, hmem2, hne, rfl, hth, rfl⟩
      · rw [if_neg hth] at hfe
        exact absurd hfe (by simp)
    · exact sortByAbsDesc_pairwise _

/-- Witness for C7 on two perfectly anti-correlated columns. -/
theorem strong_correlations_sound_witness :
    (∀ e ∈ strongCorrelations defaultConfig ["x", "y"] (fun _ _ => -1),
      e.column1 ∈ ["x", "y"] ∧ e.column2 ∈ ["x", "y"] ∧
      e.column1 ≠ e.column2 ∧
      e.correlation = -1 ∧
      defaultConfig.correlation_threshold ≤ |e.correlation| ∧
      e.strength = (if 0 < e.correlation then "positive" else "negative")) ∧
    List.Pairwise (fun a b : CorrEntry => |b.correlation| ≤ |a.correlation|)
      (strongCorrelations defaultConfig ["x", "y"] (fun _ _ => -1)) :=
  strong_correlations_sound defaultConfig ["x", "y"] (fun _ _ => -1)
    (by decide)

end DataInsight
